import Mathlib

/-!
A verification development for the ldap-async library (a pooled, promise-based
wrapper around an LDAP transport).  The definitions below are a shallow
embedding of the pool state machine, the streaming search engine's event
handlers, the ranged-attribute resolver, the batched lookup coalescer and the
recursive group-membership traversal, translated from `src/index.ts` (and,
for the idle-timeout cleanup, from the later ldapts edition of the same
module that ships in the repository).  Asynchronous callback plumbing is
modelled as explicit state passing; JavaScript numbers are modelled as `Int`
or `Nat`; fallible steps return `Option`.
-/

namespace LdapAsync

/-! ## Connection pool (src/index.ts: `connect`, `getClient`, `release`)

A pooled client is reduced to the one field the pool logic reads and writes:
its `busy` flag.  The pool state is the `clients` array plus the length of the
FIFO `poolQueue` of suspended acquirers. -/

structure LdapClient where
  busy : Bool
deriving Repr, DecidableEq

structure PoolState where
  clients : List LdapClient
  queue : Nat
deriving Repr, DecidableEq

/-- Set the `busy` flag of the client at index `i`. -/
def setBusy : List LdapClient → Nat → Bool → List LdapClient
  | [], _, _ => []
  | _ :: rest, 0, b => { busy := b } :: rest
  | c :: rest, i + 1, b => c :: setBusy rest i b

/-- `this.clients.find(c => !c.busy)`: index of the first idle client. -/
def findIdle (clients : List LdapClient) : Option Nat :=
  clients.findIdx? (fun c => !c.busy)

/-- The three ways `getClient` can respond to a caller. -/
inductive AcquireOutcome where
  | tookIdle (i : Nat)
  | created
  | enqueued
deriving Repr, DecidableEq

/-- The branch structure of `getClient`: reuse an idle client (marking it
busy), else create a new one when under `poolSize` (`connect` pushes the new
client with `busy = true`), else push the caller onto `poolQueue`. -/
def getClientStep (poolSize : Nat) (st : PoolState) : AcquireOutcome × PoolState :=
  match findIdle st.clients with
  | some i => (.tookIdle i, { st with clients := setBusy st.clients i true })
  | none =>
    if st.clients.length < poolSize then
      (.created, { st with clients := st.clients ++ [{ busy := true }] })
    else
      (.enqueued, { st with queue := st.queue + 1 })

/-- `release`: mark the client idle, then hand it to the longest-waiting
queued acquirer if any (that acquirer's resumed `getClient` marks it busy
again). -/
def releaseStep (st : PoolState) (i : Nat) : PoolState :=
  let cls := setBusy st.clients i false
  match st.queue with
  | 0 => { st with clients := cls }
  | q + 1 => { clients := setBusy cls i true, queue := q }

/-- `connect` failure path: the half-created client is destroyed and filtered
back out of `this.clients`. -/
def connectFailStep (st : PoolState) (i : Nat) : PoolState :=
  { st with clients := st.clients.eraseIdx i }

/-- Pool-mutating events, as they interleave under concurrent load. -/
inductive PoolEvent where
  | acquire
  | release (i : Nat)
  | connectFail (i : Nat)
deriving Repr, DecidableEq

def poolStep (poolSize : Nat) (st : PoolState) : PoolEvent → PoolState
  | .acquire => (getClientStep poolSize st).2
  | .release i => releaseStep st i
  | .connectFail i => connectFailStep st i

def poolRun (poolSize : Nat) (st : PoolState) (evs : List PoolEvent) : PoolState :=
  evs.foldl (poolStep poolSize) st

/-- Number of simultaneously busy connections. -/
def busyCount (st : PoolState) : Nat :=
  st.clients.countP (fun c => c.busy)

theorem setBusy_length (l : List LdapClient) (i : Nat) (b : Bool) :
    (setBusy l i b).length = l.length := by
  induction l generalizing i with
  | nil => simp [setBusy]
  | cons c rest ih =>
    cases i with
    | zero => simp [setBusy]
    | succ j => simp [setBusy, ih]

theorem poolStep_length_le (poolSize : Nat) (st : PoolState) (ev : PoolEvent)
    (h : st.clients.length ≤ poolSize) :
    (poolStep poolSize st ev).clients.length ≤ poolSize := by
  cases ev with
  | acquire =>
    unfold poolStep getClientStep
    cases hf : findIdle st.clients with
    | some i => simpa [setBusy_length] using h
    | none =>
      by_cases hlt : st.clients.length < poolSize
      · simp only [hlt, if_true]
        simpa using hlt
      · simpa [hlt] using h
  | release i =>
    unfold poolStep releaseStep
    cases hq : st.queue with
    | zero => simpa [setBusy_length] using h
    | succ q => simpa [setBusy_length] using h
  | connectFail i =>
    unfold poolStep connectFailStep
    exact le_trans (List.length_eraseIdx_le _ _) h

theorem poolRun_length_le (poolSize : Nat) (st : PoolState) (evs : List PoolEvent)
    (h : st.clients.length ≤ poolSize) :
    (poolRun poolSize st evs).clients.length ≤ poolSize := by
  induction evs generalizing st with
  | nil => simpa [poolRun] using h
  | cons ev rest ih =>
    have := poolStep_length_le poolSize st ev h
    simpa [poolRun, List.foldl_cons] using ih (poolStep poolSize st ev) this

/-- C3: For every pool size K and every interleaving of acquire, release and
connect-failure events starting from a pool within capacity, the pool never
grows past K entries and the number of simultaneously busy connections never
exceeds K; moreover `getClient` sends an acquirer to the wait-queue exactly
when no connection is idle and the pool is at (or beyond) capacity, instead
of creating a connection. -/
theorem pool_capacity_invariant (poolSize : Nat) (st : PoolState)
    (h : st.clients.length ≤ poolSize) :
    (∀ evs : List PoolEvent,
        (poolRun poolSize st evs).clients.length ≤ poolSize ∧
        busyCount (poolRun poolSize st evs) ≤ poolSize) ∧
    (∀ st2 : PoolState,
        (getClientStep poolSize st2).1 = AcquireOutcome.enqueued ↔
          findIdle st2.clients = none ∧ poolSize ≤ st2.clients.length) := by
  constructor
  · intro evs
    have hlen := poolRun_length_le poolSize st evs h
    refine ⟨hlen, le_trans ?_ hlen⟩
    exact List.countP_le_length _
  · intro st2
    constructor
    · intro hout
      unfold getClientStep at hout
      cases hf : findIdle st2.clients with
      | some i => simp [hf] at hout
      | none =>
        refine ⟨rfl, ?_⟩
        by_cases hlt : st2.clients.length < poolSize
        · simp [hf, hlt] at hout
        · omega
    · rintro ⟨hf, hge⟩
      unfold getClientStep
      have hlt : ¬ st2.clients.length < poolSize := by omega
      simp [hf, hlt]

/-- C3 witness: the invariant instantiated at pool size 2 and the empty pool. -/
theorem pool_capacity_invariant_witness :
    (⟨[], 0⟩ : PoolState).clients.length ≤ 2 ∧
    ((∀ evs : List PoolEvent,
        (poolRun 2 ⟨[], 0⟩ evs).clients.length ≤ 2 ∧
        busyCount (poolRun 2 ⟨[], 0⟩ evs) ≤ 2) ∧
    (∀ st2 : PoolState,
        (getClientStep 2 st2).1 = AcquireOutcome.enqueued ↔
          findIdle st2.clients = none ∧ 2 ≤ st2.clients.length)) :=
  ⟨by decide, pool_capacity_invariant 2 ⟨[], 0⟩ (by decide)⟩

/-! ## One release per acquire (src/index.ts: `useClient`, `stream`)

`useClient` wraps every modify/add/remove/modifyDN call: it awaits
`getClient()`, runs the callback and calls `release` in a `finally`, on the
resolved path and on the thrown path alike.  `stream` registers
`finished(stream, () => this.release(client))` as soon as `getClient()`
resolves; Node's `finished` fires that callback exactly once when the stream
reaches any terminal state (fully exhausted, destroyed early by the consumer,
or terminated by an error).  When `getClient()` itself rejects, `connect` has
already destroyed the half-created client and filtered it back out of the
pool, so the pool state is net unchanged and no release is owed.

An operation is therefore summarised by which terminal path it took; `runOp`
returns the resulting pool state together with the number of completed
`acquire()` and `release()` calls the operation performed. -/

/-- Terminal paths of a stream returned by `stream()`. -/
inductive StreamOutcome where
  | exhausted
  | destroyed
  | errored
deriving Repr, DecidableEq

/-- Terminal paths of one logical operation. -/
inductive OpPath where
  | connectError
  | callbackOk
  | callbackThrew
  | streamDone (path : StreamOutcome)
deriving Repr, DecidableEq

/-- Index of the client an un-queued `getClient` call hands out. -/
def acquiredIndex (poolSize : Nat) (st : PoolState) : Option Nat :=
  match getClientStep poolSize st with
  | (.tookIdle i, _) => some i
  | (.created, _) => some st.clients.length
  | (.enqueued, _) => none

/-- One completed acquire immediately balanced by its one release: the shape
shared by the `finally` in `useClient` and the `finished` callback in
`stream`. -/
def acquireRelease (poolSize : Nat) (st : PoolState) : PoolState × Nat × Nat :=
  match acquiredIndex poolSize st with
  | some i => (releaseStep (getClientStep poolSize st).2 i, 1, 1)
  | none => ((getClientStep poolSize st).2, 0, 0)

/-- Pool effect of one completed logical operation: state after the terminal
path, completed acquires, completed releases.  The `connectError` path is the
identity on the pool (push-then-filter in `connect`); the `useClient` paths
release in `finally` whether the callback resolved or threw; the stream paths
release through the one `finished` callback on every terminal path. -/
def runOp (poolSize : Nat) (st : PoolState) (op : OpPath) : PoolState × Nat × Nat :=
  match op with
  | .connectError => (st, 0, 0)
  | .callbackOk => acquireRelease poolSize st
  | .callbackThrew => acquireRelease poolSize st
  | .streamDone _ => acquireRelease poolSize st

def runOps (poolSize : Nat) (st : PoolState) (ops : List OpPath) : PoolState :=
  ops.foldl (fun s op => (runOp poolSize s op).1) st

/-- Every connection in the pool is idle. -/
def allIdle (st : PoolState) : Prop :=
  ∀ c ∈ st.clients, c.busy = false

theorem setBusy_false_allIdle (l : List LdapClient) (i : Nat)
    (h : ∀ c ∈ l, c.busy = false) : ∀ c ∈ setBusy l i false, c.busy = false := by
  induction l generalizing i with
  | nil => intro c hc; simp [setBusy] at hc
  | cons a rest ih =>
    cases i with
    | zero =>
      intro c hc
      simp only [setBusy, List.mem_cons] at hc
      rcases hc with rfl | hc
      · rfl
      · exact h c (List.mem_cons_of_mem _ hc)
    | succ j =>
      intro c hc
      simp only [setBusy, List.mem_cons] at hc
      rcases hc with rfl | hc
      · exact h c (List.mem_cons_self _ _)
      · exact ih j (fun c hc => h c (List.mem_cons_of_mem _ hc)) c hc

theorem setBusy_true_then_false (l : List LdapClient) (i : Nat) :
    setBusy (setBusy l i true) i false = setBusy l i false := by
  induction l generalizing i with
  | nil => simp [setBusy]
  | cons a rest ih =>
    cases i with
    | zero => simp [setBusy]
    | succ j => simp [setBusy, ih]

/-- Invariant carried through a sequence of completed operations. -/
def idleInv (poolSize : Nat) (st : PoolState) : Prop :=
  allIdle st ∧ st.queue = 0 ∧ st.clients.length ≤ poolSize

theorem findIdle_allIdle_of_ne_nil (st : PoolState) (h : allIdle st)
    (hne : st.clients ≠ []) : ∃ i, findIdle st.clients = some i := by
  cases hc : st.clients with
  | nil => exact absurd hc hne
  | cons a rest =>
    refine ⟨0, ?_⟩
    have ha : a.busy = false := h a (by simp [hc])
    simp [findIdle, List.findIdx?, ha]

theorem acquireRelease_idleInv (poolSize : Nat) (st : PoolState)
    (hK : 1 ≤ poolSize) (h : idleInv poolSize st) :
    idleInv poolSize (acquireRelease poolSize st).1 := by
  obtain ⟨hidle, hq, hlen⟩ := h
  obtain ⟨cls, q⟩ := st
  simp only at hq
  subst hq
  cases hc : cls with
  | nil =>
    have h0 : 0 < poolSize := hK
    subst hc
    refine ⟨?_, ?_, ?_⟩ <;>
      simp [acquireRelease, acquiredIndex, getClientStep, findIdle, releaseStep, h0,
        allIdle, setBusy] <;> omega
  | cons a rest =>
    subst hc
    obtain ⟨i, hf⟩ := findIdle_allIdle_of_ne_nil ⟨a :: rest, 0⟩ hidle (by simp)
    simp only at hf
    refine ⟨?_, ?_, ?_⟩ <;>
      simp [acquireRelease, acquiredIndex, getClientStep, hf, releaseStep,
        setBusy_true_then_false, allIdle, setBusy_length]
    · exact fun c hc => setBusy_false_allIdle _ _ hidle c hc
    · simpa using hlen

theorem runOp_idleInv (poolSize : Nat) (st : PoolState) (op : OpPath)
    (hK : 1 ≤ poolSize) (h : idleInv poolSize st) :
    idleInv poolSize (runOp poolSize st op).1 := by
  cases op with
  | connectError => exact h
  | callbackOk => exact acquireRelease_idleInv poolSize st hK h
  | callbackThrew => exact acquireRelease_idleInv poolSize st hK h
  | streamDone path => exact acquireRelease_idleInv poolSize st hK h

/-- C1: every logical operation that acquires a pool connection — a stream
that is fully exhausted, destroyed early, or terminated by an error, and every
`useClient`-wrapped modify/add/remove/modifyDN call — performs exactly one
`release()` per completed `acquire()` on every terminal path, and after a
sequence of such operations completes, every connection remaining in the pool
is idle (`busy = false`). -/
theorem useClient_stream_release_once (poolSize : Nat) (st : PoolState)
    (ops : List OpPath) (hK : 1 ≤ poolSize)
    (h : allIdle st ∧ st.queue = 0 ∧ st.clients.length ≤ poolSize) :
    (∀ (st2 : PoolState) (op : OpPath),
        (runOp poolSize st2 op).2.2 = (runOp poolSize st2 op).2.1) ∧
    allIdle (runOps poolSize st ops) := by
  constructor
  · intro st2 op
    cases op with
    | connectError => rfl
    | callbackOk =>
      rcases ha : acquiredIndex poolSize st2 with _ | i <;>
        simp [runOp, acquireRelease, ha]
    | callbackThrew =>
      rcases ha : acquiredIndex poolSize st2 with _ | i <;>
        simp [runOp, acquireRelease, ha]
    | streamDone path =>
      rcases ha : acquiredIndex poolSize st2 with _ | i <;>
        simp [runOp, acquireRelease, ha]
  · have : idleInv poolSize (runOps poolSize st ops) := by
      induction ops generalizing st with
      | nil => exact h
      | cons op rest ih =>
        have h1 := runOp_idleInv poolSize st op hK h
        simpa [runOps, List.foldl_cons] using ih (runOp poolSize st op).1 h1
    exact this.1

/-- C1 witness: pool size 2 starting from the empty pool, with a sample of
operations covering the success, thrown-error, stream-exhausted,
stream-destroyed, stream-errored and connect-failure paths. -/
theorem useClient_stream_release_once_witness :
    (1 ≤ 2 ∧ (allIdle ⟨[], 0⟩ ∧ (⟨[], 0⟩ : PoolState).queue = 0 ∧
      (⟨[], 0⟩ : PoolState).clients.length ≤ 2)) ∧
    ((∀ (st2 : PoolState) (op : OpPath),
        (runOp 2 st2 op).2.2 = (runOp 2 st2 op).2.1) ∧
    allIdle (runOps 2 ⟨[], 0⟩
      [OpPath.callbackOk, OpPath.callbackThrew, OpPath.streamDone .exhausted,
       OpPath.streamDone .destroyed, OpPath.streamDone .errored,
       OpPath.connectError])) :=
  ⟨⟨by decide, by refine ⟨?_, rfl, by decide⟩; intro c hc; simp at hc⟩,
    useClient_stream_release_once 2 ⟨[], 0⟩ _ (by decide)
      ⟨by intro c hc; simp at hc, rfl, by decide⟩⟩

/-! ## `wait()` (src/index.ts lines 209-223)

The loop body tries `getClient()` followed by `release()`.  In the published
source there is no `break` (and no `return`) on the successful path: the
`try` block falls straight through to the next iteration of `while (true)`.
Only the `catch` branch can leave the loop, by throwing once
`loops > failAfter / 2000`.  `loops++` is a post-increment: the `< 2` test
sees the old value, the failAfter test sees the incremented one. -/

inductive AttemptResult where
  | ok
  | fail
deriving Repr, DecidableEq

inductive WaitState where
  | looping (loops : Nat)
  | threwError
  | returned
deriving Repr, DecidableEq

/-- One iteration of the `wait()` loop, given the result of this iteration's
acquire-and-release attempt.  `failAfterLoops` stands for
`failAfter / 2000`. -/
def waitStep (failAfterLoops : Nat) (r : AttemptResult) : WaitState → WaitState
  | .looping loops =>
    match r with
    | .ok => .looping loops
    | .fail =>
      let l := loops + 1
      if loops < 2 then .looping l
      else if failAfterLoops < l then .threwError
      else .looping l
  | s => s

def waitRun (failAfterLoops : Nat) (results : List AttemptResult) (s : WaitState) : WaitState :=
  results.foldl (fun st r => waitStep failAfterLoops r st) s

/-- C6: the claim says `wait()` terminates and returns normally at the first
successful acquire-and-release attempt.  The loop in the published source has
no exit on the successful path, so `wait()` never returns — for every sequence
of attempt results (in particular an immediately-successful one) the loop
never reaches the `returned` state.  The later edition of the module in this
repository adds the missing `break` after `release(client)`, confirming the
claim describes the intent and the code as shipped is the slip. -/
theorem wait_never_returns (failAfterLoops : Nat) (results : List AttemptResult) :
    waitRun failAfterLoops results (.looping 0) ≠ WaitState.returned := by
  have key : ∀ (rs : List AttemptResult) (s : WaitState), s ≠ WaitState.returned →
      waitRun failAfterLoops rs s ≠ WaitState.returned := by
    intro rs
    induction rs with
    | nil => intro s hs; simpa [waitRun] using hs
    | cons r rest ih =>
      intro s hs
      have hstep : waitStep failAfterLoops r s ≠ WaitState.returned := by
        cases s with
        | looping loops =>
          cases r with
          | ok => simp [waitStep]
          | fail =>
            simp only [waitStep]
            by_cases h2 : loops < 2
            · simp [h2]
            · by_cases h3 : failAfterLoops < loops + 1 <;> simp [h2, h3]
        | threwError => simpa [waitStep] using hs
        | returned => exact absurd rfl hs
      simpa [waitRun, List.foldl_cons] using ih (waitStep failAfterLoops r s) hstep
  exact key results (.looping 0) (by simp)

/-! ## Stream cancellation (src/index.ts lines 280-317)

`stream._destroy` sets `canceled = true`.  Afterwards the `searchEntry`
handler returns without pushing, `sendError` returns without emitting, and the
`page` handler — `if (paused && !canceled) unpause = cb; else cb?.()` — calls
the page-continuation callback immediately, which requests the next page on
the wire. -/

/-- What the `page` event handler does with the continuation callback. -/
inductive PageAction where
  | storeUnpause
  | callContinuation
deriving Repr, DecidableEq

/-- `searchEntry` handler: the entry pushed downstream, if any. -/
def searchEntryHandler (canceled : Bool) (entry : String) : Option String :=
  if canceled then none else some entry

/-- `sendError`: whether the error event is emitted to the consumer. -/
def sendErrorEmits (canceled : Bool) : Bool :=
  !canceled

/-- `page` handler: withhold the continuation only while paused and not
canceled; otherwise invoke it at once. -/
def pageHandler (paused canceled : Bool) : PageAction :=
  if paused && !canceled then .storeUnpause else .callContinuation

/-- C7 counterexample: the claim says that after the stream is destroyed no
further page continuation is requested on the wire; but the `page` handler of
a canceled stream (here: one that was also paused) invokes the continuation
callback immediately, requesting the next page. -/
theorem pageHandler_continues_after_cancel :
    pageHandler true true = PageAction.callContinuation ∧
    PageAction.callContinuation ≠ PageAction.storeUnpause := by
  exact ⟨rfl, by decide⟩

/-- C7 amended: after a stream returned by `stream()` is destroyed before
exhaustion, no further Record is pushed to the consumer and no error event is
emitted for any in-flight wire error; arriving page events, however, have
their continuation callback invoked immediately, so the remaining pages are
drained on the wire rather than withheld. -/
theorem stream_cancel_suppression (paused : Bool) (entry : String) :
    searchEntryHandler true entry = none ∧
    sendErrorEmits true = false ∧
    pageHandler paused true = PageAction.callContinuation := by
  refine ⟨rfl, rfl, ?_⟩
  cases paused <;> rfl

/-! ## Idle cleanup (ldapts edition of the module: `idleCleanup`)

The published `src/index.ts` has no idle timeout; the later ldapts edition of
the same module in this repository stamps `lastUsed` in `release`, arms an
interval timer in `connect` whenever `idleTimeoutSeconds` is configured, and
runs `idleCleanup`: every non-busy client whose idle duration reaches the
timeout is unbound and filtered out, and the timer is cleared once no clients
remain.  Times are in milliseconds; the source computes
`(now - lastUsed) / 1000 >= idleTimeoutSeconds` with exact (float) division,
which we state equivalently as `idleTimeoutSeconds * 1000 ≤ now - lastUsed`. -/

structure TimedClient where
  busy : Bool
  lastUsed : Option Int
deriving Repr, DecidableEq

structure IdlePool where
  clients : List TimedClient
  timerRunning : Bool
deriving Repr, DecidableEq

/-- The filter inside `idleCleanup`: keep busy clients, keep clients that were
never released, drop (and unbind) clients idle for at least the timeout. -/
def keepClient (now idleTimeoutSeconds : Int) (c : TimedClient) : Bool :=
  c.busy ||
    match c.lastUsed with
    | none => true
    | some t => decide (now - t < idleTimeoutSeconds * 1000)

/-- One timer tick of `idleCleanup`: filter the clients, then clear the
interval timer when the pool has become empty. -/
def idleCleanup (p : IdlePool) (now idleTimeoutSeconds : Int) : IdlePool :=
  let remaining := p.clients.filter (keepClient now idleTimeoutSeconds)
  { clients := remaining, timerRunning := p.timerRunning && !remaining.isEmpty }

/-- C8: with an idle timeout of T seconds configured, a timer tick of
`idleCleanup` destroys every idle connection whose idle duration has reached
T, so a fully idle pool whose every client has been idle at least T seconds
empties completely on that tick and the timer stops; and the next operation
transparently reopens the pool — `getClient` on the empty pool creates a
fresh connection. -/
theorem idleCleanup_empties_pool (p : IdlePool) (now T : Int) (poolSize : Nat)
    (hK : 1 ≤ poolSize)
    (hidle : ∀ c ∈ p.clients, c.busy = false ∧
      ∃ t, c.lastUsed = some t ∧ T * 1000 ≤ now - t) :
    (idleCleanup p now T).clients = [] ∧
    (idleCleanup p now T).timerRunning = false ∧
    (getClientStep poolSize ⟨[], 0⟩).1 = AcquireOutcome.created := by
  have hrem : p.clients.filter (keepClient now T) = [] := by
    rw [List.filter_eq_nil_iff]
    intro c hc
    obtain ⟨hb, t, ht, hT⟩ := hidle c hc
    simp [keepClient, hb, ht]
    omega
  refine ⟨?_, ?_, ?_⟩
  · simpa [idleCleanup] using hrem
  · simp [idleCleanup, hrem]
  · have h0 : 0 < poolSize := hK
    simp [getClientStep, findIdle, h0]

/-- A two-client pool, both clients long idle, used by the C8 witness. -/
def agedPool : IdlePool :=
  ⟨[⟨false, some 1000⟩, ⟨false, some 2000⟩], true⟩

/-- C8 witness: both clients have been idle far beyond a 230-second timeout at
time 400000 ms. -/
theorem idleCleanup_empties_pool_witness :
    (1 ≤ 5 ∧ (∀ c ∈ agedPool.clients, c.busy = false ∧
      ∃ t, c.lastUsed = some t ∧ 230 * 1000 ≤ 400000 - t)) ∧
    ((idleCleanup agedPool 400000 230).clients = [] ∧
    (idleCleanup agedPool 400000 230).timerRunning = false ∧
    (getClientStep 5 ⟨[], 0⟩).1 = AcquireOutcome.created) :=
  ⟨⟨by decide, by decide⟩,
    idleCleanup_empties_pool agedPool 400000 230 5 (by decide) (by decide)⟩

/-! ## Directory model and `pushAttribute` / `pullAttribute`
(src/index.ts lines 412-439)

`pushAttribute` fetches the entry, collects the attribute's existing values
into a Set, keeps only the given values not already present, and returns
`true` without issuing any modify when none remain; otherwise it issues one
`modify(dn, 'add', ...)`.  `pullAttribute` is symmetric with `'delete'` and
the values that are present. -/

structure DirEntry where
  dn : String
  attrs : List (String × List String)
deriving Repr, DecidableEq

/-- Values of one attribute on one entry (`current.all(attribute)`; attribute
names here are already in canonical form — case folding is handled by the
`LdapEntry` accessors modelled below). -/
def dirAll (dir : List DirEntry) (dn attr : String) : List String :=
  match dir.find? (fun e => e.dn = dn) with
  | none => []
  | some e =>
    match e.attrs.find? (fun p => p.1 = attr) with
    | none => []
    | some p => p.2

/-- `newValues = values.filter(v => !existingValues.has(v))`; `none` when the
early `return true` fires. -/
def pushAttributePlan (existingValues values : List String) : Option (List String) :=
  let newValues := values.filter (fun v => !existingValues.contains v)
  if newValues.isEmpty then none else some newValues

/-- `oldValues = values.filter(v => existingValues.has(v))`; `none` when the
early `return true` fires. -/
def pullAttributePlan (existingValues values : List String) : Option (List String) :=
  let oldValues := values.filter (fun v => existingValues.contains v)
  if oldValues.isEmpty then none else some oldValues

/-- Server-side effect of `modify(dn, 'add', { type, values })`. -/
def applyAdd (dir : List DirEntry) (dn attr : String) (vals : List String) : List DirEntry :=
  dir.map fun e =>
    if e.dn = dn then
      { e with attrs :=
          if e.attrs.any (fun p => p.1 = attr) then
            e.attrs.map (fun p => if p.1 = attr then (p.1, p.2 ++ vals) else p)
          else e.attrs ++ [(attr, vals)] }
    else e

/-- Server-side effect of `modify(dn, 'delete', { type, values })`. -/
def applyDelete (dir : List DirEntry) (dn attr : String) (vals : List String) : List DirEntry :=
  dir.map fun e =>
    if e.dn = dn then
      { e with attrs := e.attrs.map (fun p =>
          if p.1 = attr then (p.1, p.2.filter (fun v => !vals.contains v)) else p) }
    else e

def pushAttribute (dir : List DirEntry) (dn attr : String) (values : List String) :
    Bool × List DirEntry :=
  match pushAttributePlan (dirAll dir dn attr) values with
  | none => (true, dir)
  | some newValues => (true, applyAdd dir dn attr newValues)

def pullAttribute (dir : List DirEntry) (dn attr : String) (values : List String) :
    Bool × List DirEntry :=
  match pullAttributePlan (dirAll dir dn attr) values with
  | none => (true, dir)
  | some oldValues => (true, applyDelete dir dn attr oldValues)

/-- C10: `pushAttribute(dn, attr, values)` with every given value already
present on the entry, and `pullAttribute(dn, attr, values)` with none of the
given values present, both return `true` without issuing any modify
operation, leaving the directory unchanged. -/
theorem pushAttribute_pullAttribute_noop (dir : List DirEntry) (dn attr : String)
    (pvals qvals : List String)
    (hpush : ∀ v ∈ pvals, v ∈ dirAll dir dn attr)
    (hpull : ∀ v ∈ qvals, v ∉ dirAll dir dn attr) :
    pushAttribute dir dn attr pvals = (true, dir) ∧
    pullAttribute dir dn attr qvals = (true, dir) := by
  constructor
  · have hplan : pushAttributePlan (dirAll dir dn attr) pvals = none := by
      simp only [pushAttributePlan]
      simp
      exact hpush
    simp [pushAttribute, hplan]
  · have hplan : pullAttributePlan (dirAll dir dn attr) qvals = none := by
      simp only [pullAttributePlan]
      simp
      exact hpull
    simp [pullAttribute, hplan]

/-- A one-entry directory used by concrete witnesses. -/
def exDirectory : List DirEntry :=
  [⟨"cn=grp,dc=x", [("member", ["cn=a,dc=x", "cn=b,dc=x"])]⟩]

/-- C10 witness: pushing two already-present members and pulling an absent one
both leave the directory untouched. -/
theorem pushAttribute_pullAttribute_noop_witness :
    ((∀ v ∈ ["cn=a,dc=x", "cn=b,dc=x"], v ∈ dirAll exDirectory "cn=grp,dc=x" "member") ∧
     (∀ v ∈ ["cn=zz,dc=x"], v ∉ dirAll exDirectory "cn=grp,dc=x" "member")) ∧
    (pushAttribute exDirectory "cn=grp,dc=x" "member" ["cn=a,dc=x", "cn=b,dc=x"] =
      (true, exDirectory) ∧
     pullAttribute exDirectory "cn=grp,dc=x" "member" ["cn=zz,dc=x"] =
      (true, exDirectory)) :=
  ⟨⟨by decide, by decide⟩,
    pushAttribute_pullAttribute_noop exDirectory "cn=grp,dc=x" "member"
      ["cn=a,dc=x", "cn=b,dc=x"] ["cn=zz,dc=x"] (by decide) (by decide)⟩

/-! ## `LdapEntry` attribute map (src/index.ts lines 559-633)

The constructor keys each wire attribute by
`attr.type.split(';', 2)[0].toLocaleLowerCase()`, keeping the original
`Attribute` object (with its declared casing) as the value; later attributes
with the same key overwrite in place.  Every accessor lowercases its argument
before the map lookup.  `toJSON` iterates the map and writes each attribute
under `lcAttr` — the lowercased, option-stripped name — not under the
declared casing.  The base64/scalar rendering of the value side is not
relevant to the casing claim and is kept as the raw value list. -/

structure WireAttribute where
  type : String
  values : List String
deriving Repr, DecidableEq

/-- `toLocaleLowerCase()` (ASCII attribute names in scope). -/
def lowerString (s : String) : String :=
  String.mk (s.data.map Char.toLower)

def splitCharAux (sep : Char) : List Char → List Char → List String
  | [], acc => [String.mk acc.reverse]
  | c :: rest, acc =>
    if c = sep then String.mk acc.reverse :: splitCharAux sep rest []
    else splitCharAux sep rest (c :: acc)

/-- JS `String.prototype.split` with a single-character separator. -/
def splitChar (sep : Char) (s : String) : List String :=
  splitCharAux sep s.data []

/-- `attr.type.split(';', 2)[0].toLocaleLowerCase()`. -/
def attrKey (type : String) : String :=
  lowerString ((splitChar ';' type).headD "")

/-- JS `Map.set`: overwrite in place when the key exists, else append. -/
def mapSet (m : List (String × WireAttribute)) (k : String) (v : WireAttribute) :
    List (String × WireAttribute) :=
  if m.any (fun p => p.1 = k) then
    m.map (fun p => if p.1 = k then (k, v) else p)
  else m ++ [(k, v)]

/-- JS `Map.get`. -/
def mapGet (m : List (String × WireAttribute)) (k : String) : Option WireAttribute :=
  (m.find? (fun p => p.1 = k)).map (fun p => p.2)

structure LdapEntry where
  attrs : List (String × WireAttribute)
deriving Repr, DecidableEq

/-- The `LdapEntry` constructor over the wire attributes of a `SearchEntry`. -/
def LdapEntry.ofSearchEntry (attributes : List WireAttribute) : LdapEntry :=
  ⟨attributes.foldl (fun m attr => mapSet m (attrKey attr.type) attr) []⟩

def LdapEntry.get (e : LdapEntry) (attr : String) : Option String :=
  (mapGet e.attrs (lowerString attr)).bind (fun a => a.values.head?)

def LdapEntry.one (e : LdapEntry) (attr : String) : Option String :=
  e.get (lowerString attr)

def LdapEntry.first (e : LdapEntry) (attr : String) : Option String :=
  e.get (lowerString attr)

def LdapEntry.all (e : LdapEntry) (attr : String) : List String :=
  ((mapGet e.attrs (lowerString attr)).map (fun a => a.values)).getD []

/-- `buffers` (byte buffers identified with their decoded values here). -/
def LdapEntry.buffers (e : LdapEntry) (attr : String) : List String :=
  ((mapGet e.attrs (lowerString attr)).map (fun a => a.values)).getD []

def LdapEntry.buffer (e : LdapEntry) (attr : String) : Option String :=
  (mapGet e.attrs (lowerString attr)).bind (fun a => a.values.head?)

/-- `toJSON`: each attribute with at least one value is written under its
lowercased, option-stripped name. -/
def LdapEntry.toJSON (e : LdapEntry) : List (String × List String) :=
  e.attrs.foldl (fun obj p =>
    if p.2.values.length > 0 then obj ++ [(attrKey p.2.type, p.2.values)] else obj) []

/-- C9 counterexample: the claim says the originally declared casing of an
attribute name is preserved in the JSON projection; but an entry whose wire
attribute was declared as givenName is projected under the key givenname. -/
theorem toJSON_lowercases_counterexample :
    (LdapEntry.ofSearchEntry [⟨"givenName", ["John"]⟩]).toJSON =
      [("givenname", ["John"])] ∧
    "givenname" ≠ "givenName" := by
  exact ⟨by decide, by decide⟩

theorem buildAttrs_key_eq (attributes : List WireAttribute) :
    ∀ p ∈ (LdapEntry.ofSearchEntry attributes).attrs,
      p.2 ∈ attributes ∧ p.1 = attrKey p.2.type := by
  suffices h : ∀ (l : List WireAttribute) (m : List (String × WireAttribute)),
      (∀ p ∈ m, p.2 ∈ attributes ∧ p.1 = attrKey p.2.type) →
      (∀ a ∈ l, a ∈ attributes) →
      ∀ p ∈ l.foldl (fun m attr => mapSet m (attrKey attr.type) attr) m,
        p.2 ∈ attributes ∧ p.1 = attrKey p.2.type by
    intro p hp
    exact h attributes [] (by simp) (fun a ha => ha) p hp
  intro l
  induction l with
  | nil => intro m hm _ p hp; exact hm p hp
  | cons a rest ih =>
    intro m hm hl p hp
    have ha : a ∈ attributes := hl a (List.mem_cons_self _ _)
    have hm2 : ∀ q ∈ mapSet m (attrKey a.type) a, q.2 ∈ attributes ∧ q.1 = attrKey q.2.type := by
      intro q hq
      unfold mapSet at hq
      by_cases hany : m.any (fun p => p.1 = attrKey a.type)
      · rw [if_pos hany] at hq
        obtain ⟨r, hr, hrq⟩ := List.mem_map.mp hq
        by_cases hcase : r.1 = attrKey a.type
        · rw [if_pos hcase] at hrq
          exact hrq ▸ ⟨ha, rfl⟩
        · rw [if_neg hcase] at hrq
          exact hrq ▸ hm r hr
      · rw [if_neg hany] at hq
        rcases List.mem_append.mp hq with hq2 | hq2
        · exact hm q hq2
        · exact (List.mem_singleton.mp hq2) ▸ ⟨ha, rfl⟩
    exact ih (mapSet m (attrKey a.type) a) hm2
      (fun b hb => hl b (List.mem_cons_of_mem _ hb)) p hp

theorem toJSON_keys (e : LdapEntry) :
    ∀ q ∈ e.toJSON, ∃ p ∈ e.attrs, q.1 = attrKey p.2.type ∧ q.2 = p.2.values := by
  suffices h : ∀ (l : List (String × WireAttribute)) (obj : List (String × List String)),
      (∀ q ∈ obj, ∃ p ∈ e.attrs, q.1 = attrKey p.2.type ∧ q.2 = p.2.values) →
      (∀ p ∈ l, p ∈ e.attrs) →
      ∀ q ∈ l.foldl (fun obj p =>
          if p.2.values.length > 0 then obj ++ [(attrKey p.2.type, p.2.values)] else obj) obj,
        ∃ p ∈ e.attrs, q.1 = attrKey p.2.type ∧ q.2 = p.2.values by
    intro q hq
    exact h e.attrs [] (by simp) (fun p hp => hp) q hq
  intro l
  induction l with
  | nil => intro obj hobj _ q hq; exact hobj q hq
  | cons a rest ih =>
    intro obj hobj hl q hq
    have ha : a ∈ e.attrs := hl a (List.mem_cons_self _ _)
    have hobj2 : ∀ r ∈ (if a.2.values.length > 0 then
        obj ++ [(attrKey a.2.type, a.2.values)] else obj),
        ∃ p ∈ e.attrs, r.1 = attrKey p.2.type ∧ r.2 = p.2.values := by
      intro r hr
      by_cases hlen : a.2.values.length > 0
      · simp only [hlen, if_true, List.mem_append, List.mem_singleton] at hr
        rcases hr with hr | hr
        · exact hobj r hr
        · exact ⟨a, ha, by simp [hr]⟩
      · simp only [hlen, if_false] at hr
        exact hobj r hr
    exact ih _ hobj2 (fun p hp => hl p (List.mem_cons_of_mem _ hp)) q hq

/-- C9 amended: every accessor (`get`/`one`/`first`/`all`/`buffer`/`buffers`)
looks its attribute up case-insensitively — any two casings of the name that
lowercase identically return the same values — but the JSON projection does
not preserve the originally declared casing: every key `toJSON` emits is the
lowercased (option-stripped) form `attrKey` of the declared attribute name of
some stored attribute, never the declared casing itself. -/
theorem attribute_case_insensitive_lookup (e : LdapEntry) (s t : String)
    (h : lowerString s = lowerString t) :
    (e.get s = e.get t ∧ e.one s = e.one t ∧ e.first s = e.first t ∧
     e.all s = e.all t ∧ e.buffer s = e.buffer t ∧ e.buffers s = e.buffers t) ∧
    (∀ q ∈ e.toJSON, ∃ p ∈ e.attrs, q.1 = attrKey p.2.type ∧ q.2 = p.2.values) := by
  have h2 : lowerString (lowerString s) = lowerString (lowerString t) := by rw [h]
  refine ⟨⟨?_, ?_, ?_, ?_, ?_, ?_⟩, toJSON_keys e⟩ <;>
    simp only [LdapEntry.get, LdapEntry.one, LdapEntry.first, LdapEntry.all,
      LdapEntry.buffer, LdapEntry.buffers, h, h2]

/-- A concrete entry for the C9 witness. -/
def exEntry : LdapEntry :=
  LdapEntry.ofSearchEntry [⟨"givenName", ["John"]⟩, ⟨"memberOf;range=0-1", ["a", "b"]⟩]

/-- C9 witness: the amended statement instantiated at a concrete entry and at
the two casings GIVENNAME and givenname. -/
theorem attribute_case_insensitive_lookup_witness :
    (lowerString "GIVENNAME" = lowerString "givenname") ∧
    ((exEntry.get "GIVENNAME" = exEntry.get "givenname" ∧
      exEntry.one "GIVENNAME" = exEntry.one "givenname" ∧
      exEntry.first "GIVENNAME" = exEntry.first "givenname" ∧
      exEntry.all "GIVENNAME" = exEntry.all "givenname" ∧
      exEntry.buffer "GIVENNAME" = exEntry.buffer "givenname" ∧
      exEntry.buffers "GIVENNAME" = exEntry.buffers "givenname") ∧
    (∀ q ∈ exEntry.toJSON, ∃ p ∈ exEntry.attrs,
        q.1 = attrKey p.2.type ∧ q.2 = p.2.values)) :=
  ⟨by decide, attribute_case_insensitive_lookup exEntry "GIVENNAME" "givenname" (by decide)⟩

/-! ## Ranged attribute resolver (src/index.ts lines 643-660, `fullRange`)

Each loop iteration pushes the current window's values, then returns when the
attribute carries no `range=` option, when the option ends in `*`, or when the
window held zero values; otherwise it parses the granted `low-high`, computes
`pageSize = 1 + high - low`, `newLow = high + 1`,
`newHigh = newLow + pageSize - 1`, and loads the entry again with
`;range=newLow-newHigh`, which the server answers with the next window.  A run
of the loop is therefore determined by the list of windows the server hands
back; `fullRangeLoop` returns the accumulated values together with the
continuation requests issued on the wire. -/

inductive RangeMarker where
  | noMarker
  | star
  | cont (low high : Int)
deriving Repr, DecidableEq

structure RangeWindow where
  values : List String
  marker : RangeMarker
deriving Repr, DecidableEq

def isCont : RangeMarker → Bool
  | .cont _ _ => true
  | _ => false

/-- `pageSize`/`newLow`/`newHigh` arithmetic of one continuation request. -/
def nextRangeRequest (low high : Int) : Int × Int :=
  let pageSize := 1 + high - low
  let newLow := high + 1
  let newHigh := newLow + pageSize - 1
  (newLow, newHigh)

def fullRangeLoop : List RangeWindow → List String × List (Int × Int)
  | [] => ([], [])
  | w :: rest =>
    match w.marker with
    | .cont low high =>
      if w.values.isEmpty then (w.values, [])
      else
        let next := fullRangeLoop rest
        (w.values ++ next.1, nextRangeRequest low high :: next.2)
    | _ => (w.values, [])

/-- Modelled from the spec: the continuation window the specification
prescribes, `[high + 1, high + pageSize]` with
`pageSize = 1 + high - low` of the previously granted window. -/
def specContinuationWindow (w : RangeWindow) : Int × Int :=
  match w.marker with
  | .cont low high => (high + 1, high + (1 + high - low))
  | _ => (0, 0)

/-- C4: for an attribute delivered in W range windows — every window before
the last carrying a continuing range marker and at least one value, the last
window terminal (no marker, a marker ending in `*`, or zero values) —
`fullRange` returns exactly the concatenation of all windows' values, each
value exactly once, in window order; and every continuation request it issues
re-requests the attribute with the window `[high + 1, high + pageSize]` where
`pageSize = 1 + high - low` of the previously granted window. -/
theorem fullRangeLoop_cons (w : RangeWindow) (rest : List RangeWindow) :
    fullRangeLoop (w :: rest) =
      match w.marker with
      | .cont low high =>
        if w.values.isEmpty then (w.values, [])
        else (w.values ++ (fullRangeLoop rest).1,
          nextRangeRequest low high :: (fullRangeLoop rest).2)
      | _ => (w.values, []) := rfl

theorem nextRangeRequest_spec (low high : Int) :
    nextRangeRequest low high = (high + 1, high + (1 + high - low)) := by
  show (high + 1, high + 1 + (1 + high - low) - 1) = (high + 1, high + (1 + high - low))
  have h : high + 1 + (1 + high - low) - 1 = high + (1 + high - low) := by ring
  rw [h]

theorem fullRange_window_union (ws : List RangeWindow)
    (hne : ws ≠ [])
    (hmid : ∀ w ∈ ws.dropLast, isCont w.marker = true ∧ w.values ≠ [])
    (hlast : ∀ w, ws.getLast? = some w → isCont w.marker = false ∨ w.values = []) :
    (fullRangeLoop ws).1 = (ws.map RangeWindow.values).flatten ∧
    (fullRangeLoop ws).2 = ws.dropLast.map specContinuationWindow ∧
    (∀ low high : Int, nextRangeRequest low high = (high + 1, high + (1 + high - low))) := by
  refine ⟨?_, ?_, fun low high => nextRangeRequest_spec low high⟩ <;>
  · induction ws with
    | nil => exact absurd rfl hne
    | cons w rest ih =>
      cases rest with
      | nil =>
        have hterm := hlast w (by simp)
        rw [fullRangeLoop_cons]
        cases hm : w.marker with
        | cont low high =>
          rcases hterm with hterm | hterm
          · rw [hm] at hterm; simp [isCont] at hterm
          · simp [hterm]
        | noMarker => simp
        | star => simp
      | cons b t =>
        have hw := hmid w (by
          rw [List.dropLast_cons_of_ne_nil (by simp)]
          exact List.mem_cons_self _ _)
        have hmid2 : ∀ v ∈ (b :: t).dropLast, isCont v.marker = true ∧ v.values ≠ [] := by
          intro v hv
          refine hmid v ?_
          rw [List.dropLast_cons_of_ne_nil (by simp)]
          exact List.mem_cons_of_mem _ hv
        have hlast2 : ∀ v, (b :: t).getLast? = some v →
            isCont v.marker = false ∨ v.values = [] := by
          intro v hv
          exact hlast v (by rw [List.getLast?_cons_cons]; exact hv)
        have ihx := ih (by simp) hmid2 hlast2
        rw [fullRangeLoop_cons]
        cases hm : w.marker with
        | cont low high =>
          have hvals : ¬ w.values.isEmpty := by
            simpa [List.isEmpty_iff] using hw.2
          simp [hvals, ihx, nextRangeRequest_spec, specContinuationWindow, hm,
            List.dropLast_cons_of_ne_nil]
        | noMarker => rw [hm] at hw; simp [isCont] at hw
        | star => rw [hm] at hw; simp [isCont] at hw

/-- Three windows used by the C4 witness: values split a-b / c-d / e, the
final window marked with a trailing star. -/
def exWindows : List RangeWindow :=
  [⟨["a", "b"], .cont 0 1⟩, ⟨["c", "d"], .cont 2 3⟩, ⟨["e"], .star⟩]

/-- C4 witness: the theorem instantiated at the three concrete windows. -/
theorem fullRange_window_union_witness :
    (exWindows ≠ [] ∧
     (∀ w ∈ exWindows.dropLast, isCont w.marker = true ∧ w.values ≠ []) ∧
     (∀ w, exWindows.getLast? = some w → isCont w.marker = false ∨ w.values = [])) ∧
    ((fullRangeLoop exWindows).1 = (exWindows.map RangeWindow.values).flatten ∧
     (fullRangeLoop exWindows).2 = exWindows.dropLast.map specContinuationWindow ∧
     (∀ low high : Int, nextRangeRequest low high = (high + 1, high + (1 + high - low)))) :=
  ⟨⟨by decide, by decide, by decide⟩,
    fullRange_window_union exWindows (by decide) (by decide) (by decide)⟩

/-! ## dn parsing and filter escaping (src/index.ts: `searchForDN`, `filter`,
`templateLiteralEscape`, `batch`)

`searchForDN` splits a dn at its first unescaped comma (the regex
`(?<!\\),`), joins the remaining components back into the base dn, splits the
first component at `=`, and unescapes the value (remove the first backslash
not preceded by a backslash, then collapse the first double backslash).  The
`filter` template literal escapes `\0 ( ) * \` in interpolated values. -/

def splitUnescapedCommaAux : List Char → List Char → List (List Char)
  | [], acc => [acc.reverse]
  | c :: rest, acc =>
    if c = ',' then
      match acc with
      | p :: _ =>
        if p = '\\' then splitUnescapedCommaAux rest (c :: acc)
        else acc.reverse :: splitUnescapedCommaAux rest []
      | [] => acc.reverse :: splitUnescapedCommaAux rest []
    else splitUnescapedCommaAux rest (c :: acc)

/-- `dn.split(/(?<!\\),/)`: split at commas not directly preceded by a
backslash. -/
def splitUnescapedComma (s : String) : List String :=
  (splitUnescapedCommaAux s.data []).map String.mk

/-- `.replace(/(?<!\\)\\/, '')`: drop the first backslash not preceded by a
backslash. -/
def removeFirstLoneBackslashAux : Option Char → List Char → List Char
  | _, [] => []
  | prev, c :: rest =>
    if c = '\\' ∧ prev ≠ some '\\' then rest
    else c :: removeFirstLoneBackslashAux (some c) rest

/-- `.replace(/\\\\/, '\\')`: collapse the first double backslash. -/
def collapseFirstDoubleBackslash : List Char → List Char
  | '\\' :: '\\' :: rest => '\\' :: rest
  | c :: rest => c :: collapseFirstDoubleBackslash rest
  | [] => []

structure DNParts where
  basedn : String
  attr : String
  val : String
deriving Repr, DecidableEq

def searchForDN (dn : String) : DNParts :=
  let comps := splitUnescapedComma dn
  let first := comps.headD ""
  let basedn := String.intercalate "," comps.tail
  let eqParts := splitChar '=' first
  let attr := eqParts.headD ""
  let valRaw := String.intercalate "=" eqParts.tail
  let val := String.mk
    (collapseFirstDoubleBackslash (removeFirstLoneBackslashAux none valRaw.data))
  ⟨basedn, attr, val⟩

def filterEscapeChar (c : Char) : List Char :=
  if c = Char.ofNat 0 then ['\\', '0', '0']
  else if c = '(' then ['\\', '2', '8']
  else if c = ')' then ['\\', '2', '9']
  else if c = '*' then ['\\', '2', 'a']
  else if c = '\\' then ['\\', '5', 'c']
  else [c]

/-- The `filter` template literal applied to one interpolated value. -/
def filterEscape (s : String) : String :=
  String.mk (s.data.map filterEscapeChar).flatten

/-! ## The `batch` helper (src/index.ts lines 75-82) and the load coalescer
(lines 229-254)

`load(dn)` parses the dn, keys the shared buffer by the requested attribute
set plus base dn, adds the equality filter string to a per-key `Set`, and all
calls arriving before the zero-delay timer fires share one promise: the timer
drains the accumulated filter set, slices it with `batch` into groups of at
most 100, issues one `(|...)` OR search per group, and each returned entry is
stored in a map under `entry.get('dn')`; every caller then reads its own dn
out of the shared map. -/

/-- The slicing loop of `batch`, indexed by a fuel that the wrapper fixes at
the input length (each iteration drops at least one element for a positive
batch limit, so that fuel always suffices; `batch` is always invoked with the
default limit 100 — a zero limit would not terminate in the source either and
is mapped to `[]`). -/
def chunkGo (batchLimit : Nat) : Nat → List α → List (List α)
  | _, [] => []
  | 0, _ :: _ => []
  | fuel + 1, x :: xs =>
    if batchLimit = 0 then []
    else List.take batchLimit (x :: xs) ::
      chunkGo batchLimit fuel (List.drop batchLimit (x :: xs))

def chunk (batchLimit : Nat) (l : List α) : List (List α) :=
  chunkGo batchLimit l.length l

/-- `batch(input, batchLimit)`: `[[]]` on an empty input, else the slices. -/
def batch (input : List α) (batchLimit : Nat) : List (List α) :=
  if input.isEmpty then [[]] else chunk batchLimit input

/-- JS `Set` accumulation order: first insertion wins, duplicates dropped. -/
def dedupKeep (l : List String) : List String :=
  l.foldl (fun acc s => if acc.contains s then acc else acc ++ [s]) []

/-- The equality filter string `load` adds for one dn:
`this.filter`(${attr}=${val})``. -/
def loadFilterOf (dn : String) : String :=
  let p := searchForDN dn
  "(" ++ filterEscape p.attr ++ "=" ++ filterEscape p.val ++ ")"

/-- One batched OR search: the directory entries matching any equality filter
in the group (an entry answers the `(attr=val)` filter derived from a dn
exactly when its own dn derives the same filter — the well-formed-directory
reading of an equality search under the shared base dn). -/
def searchLoadBatch (dir : List DirEntry) (filters : List String) : List DirEntry :=
  dir.filter (fun e => filters.contains (loadFilterOf e.dn))

/-- The filter groups dispatched for the `load` calls of one tick. -/
def loadBatches (dns : List String) : List (List String) :=
  batch (dedupKeep (dns.map loadFilterOf)) 100

/-- All entries returned by the dispatched searches, in arrival order. -/
def loadResults (dir : List DirEntry) (dns : List String) : List DirEntry :=
  ((loadBatches dns).map (searchLoadBatch dir)).flatten

/-- `ret.set(entry.get('dn'), entry)` followed by `entries.get(dn)`: the last
returned entry carrying that dn, if any. -/
def loadGet (results : List DirEntry) (dn : String) : Option DirEntry :=
  (results.filter (fun e => e.dn = dn)).getLast?

/-- What one `load(dn)` call of the tick resolves to. -/
def loadOne (dir : List DirEntry) (dns : List String) (dn : String) : Option DirEntry :=
  loadGet (loadResults dir dns) dn

theorem chunkGo_length_eq (n : Nat) (f : Nat) :
    ∀ (l : List α), l.length ≤ f →
      (chunkGo (n + 1) f l).length = (l.length + n) / (n + 1) := by
  induction f with
  | zero =>
    intro l hl
    have hnil : l = [] := List.eq_nil_of_length_eq_zero (Nat.le_zero.mp hl)
    subst hnil
    simp [chunkGo, Nat.div_eq_of_lt (Nat.lt_succ_self n)]
  | succ k ih =>
    intro l hl
    cases l with
    | nil => simp [chunkGo, Nat.div_eq_of_lt (Nat.lt_succ_self n)]
    | cons x xs =>
      rw [chunkGo]
      simp only [Nat.succ_ne_zero, if_false, List.length_cons]
      have hdrop : (List.drop (n + 1) (x :: xs)).length = xs.length - n := by
        simp [List.length_drop]
      have hih := ih (List.drop (n + 1) (x :: xs)) (by
        rw [hdrop]
        simp only [List.length_cons] at hl
        omega)
      rw [hih, hdrop]
      by_cases hle : n ≤ xs.length
      · have h1 : xs.length - n + n = xs.length := by omega
        have h2 : xs.length + 1 + n = xs.length + (n + 1) := by omega
        rw [h1, h2, Nat.add_div_right _ (Nat.succ_pos n)]
      · have h1 : xs.length - n = 0 := by omega
        rw [h1]
        have h2 : n / (n + 1) = 0 := Nat.div_eq_of_lt (Nat.lt_succ_self n)
        rw [Nat.zero_add, h2]
        have h3 : (xs.length + 1 + n) / (n + 1) = 1 := by
          apply Nat.div_eq_of_lt_le
          · omega
          · omega
        omega

theorem chunk_length_eq (n : Nat) (l : List α) :
    (chunk (n + 1) l).length = (l.length + n) / (n + 1) :=
  chunkGo_length_eq n l.length l le_rfl

theorem chunkGo_mem_length_le (n : Nat) (f : Nat) :
    ∀ (l : List α), l.length ≤ f → ∀ b ∈ chunkGo (n + 1) f l, b.length ≤ n + 1 := by
  induction f with
  | zero =>
    intro l hl b hb
    have hnil : l = [] := List.eq_nil_of_length_eq_zero (Nat.le_zero.mp hl)
    subst hnil
    simp [chunkGo] at hb
  | succ k ih =>
    intro l hl b hb
    cases l with
    | nil => simp [chunkGo] at hb
    | cons x xs =>
      rw [chunkGo] at hb
      simp only [Nat.succ_ne_zero, if_false, List.mem_cons] at hb
      rcases hb with hb | hb
      · rw [hb]
        simpa using List.length_take_le (n + 1) (x :: xs)
      · refine ih (List.drop (n + 1) (x :: xs)) ?_ b hb
        simp only [List.length_drop, List.length_cons] at *
        omega

theorem chunk_mem_length_le (n : Nat) (l : List α) :
    ∀ b ∈ chunk (n + 1) l, b.length ≤ n + 1 :=
  chunkGo_mem_length_le n l.length l le_rfl

theorem chunkGo_flatten (n : Nat) (f : Nat) :
    ∀ (l : List α), l.length ≤ f → (chunkGo (n + 1) f l).flatten = l := by
  induction f with
  | zero =>
    intro l hl
    have hnil : l = [] := List.eq_nil_of_length_eq_zero (Nat.le_zero.mp hl)
    subst hnil
    simp [chunkGo]
  | succ k ih =>
    intro l hl
    cases l with
    | nil => simp [chunkGo]
    | cons x xs =>
      rw [chunkGo]
      simp only [Nat.succ_ne_zero, if_false, List.flatten_cons]
      rw [ih (List.drop (n + 1) (x :: xs)) (by
        simp only [List.length_drop, List.length_cons] at *
        omega)]
      exact List.take_append_drop _ _

theorem chunk_flatten (n : Nat) (l : List α) :
    (chunk (n + 1) l).flatten = l :=
  chunkGo_flatten n l.length l le_rfl

theorem dedupKeep_length_le (l : List String) :
    (dedupKeep l).length ≤ l.length := by
  suffices H : ∀ (acc : List String),
      (l.foldl (fun acc s => if acc.contains s then acc else acc ++ [s]) acc).length ≤
        acc.length + l.length by
    simpa [dedupKeep] using H []
  induction l with
  | nil => intro acc; simp
  | cons x xs ih =>
    intro acc
    simp only [List.foldl_cons]
    by_cases hx : acc.contains x
    · rw [if_pos hx]
      calc _ ≤ acc.length + xs.length := ih acc
        _ ≤ acc.length + (x :: xs).length := by simp
    · rw [if_neg hx]
      calc _ ≤ (acc ++ [x]).length + xs.length := ih (acc ++ [x])
        _ = acc.length + (x :: xs).length := by
          simp only [List.length_append, List.length_cons, List.length_nil]
          omega

theorem dedupKeep_mem (l : List String) (s : String) :
    s ∈ dedupKeep l ↔ s ∈ l := by
  suffices H : ∀ (acc : List String),
      (s ∈ l.foldl (fun acc t => if acc.contains t then acc else acc ++ [t]) acc ↔
        s ∈ acc ∨ s ∈ l) by
    simpa [dedupKeep] using H []
  induction l with
  | nil => intro acc; simp
  | cons x xs ih =>
    intro acc
    simp only [List.foldl_cons]
    by_cases hx : acc.contains x
    · rw [if_pos hx]
      rw [ih acc]
      have hxm : x ∈ acc := by simpa using hx
      constructor
      · rintro (h | h)
        · exact Or.inl h
        · exact Or.inr (List.mem_cons_of_mem _ h)
      · rintro (h | h)
        · exact Or.inl h
        · rcases List.mem_cons.mp h with rfl | h
          · exact Or.inl hxm
          · exact Or.inr h
    · rw [if_neg hx]
      rw [ih (acc ++ [x])]
      simp only [List.mem_append, List.mem_singleton, List.mem_cons]
      tauto

theorem dedupKeep_ne_nil (l : List String) (hne : l ≠ []) :
    dedupKeep l ≠ [] := by
  intro h
  cases l with
  | nil => exact hne rfl
  | cons x xs =>
    have : x ∈ dedupKeep (x :: xs) := (dedupKeep_mem _ _).mpr (List.mem_cons_self _ _)
    rw [h] at this
    simp at this

/-- C5: for M `load` calls issued within the same tick against the same base
dn and requested-attribute set, at most `⌈M/100⌉` underlying searches are
dispatched, each an OR-filter of at most 100 equality terms; the calls share
the one result map of the batched searches, and each call resolves to the
entry whose dn equals its argument — or to nothing when the directory returns
no entry with that dn. -/
theorem load_batch_coalescing (dir : List DirEntry) (dns : List String)
    (hne : dns ≠ []) :
    (loadBatches dns).length ≤ (dns.length + 99) / 100 ∧
    (∀ b ∈ loadBatches dns, b.length ≤ 100) ∧
    (∀ dn ∈ dns,
      (∀ e, loadOne dir dns dn = some e → e.dn = dn) ∧
      (loadOne dir dns dn = none → ∀ e ∈ dir, e.dn ≠ dn)) := by
  have hfne : dedupKeep (dns.map loadFilterOf) ≠ [] := by
    apply dedupKeep_ne_nil
    simpa using hne
  have hbatch : loadBatches dns = chunk 100 (dedupKeep (dns.map loadFilterOf)) := by
    unfold loadBatches batch
    rw [if_neg (by simpa [List.isEmpty_iff] using hfne)]
  refine ⟨?_, ?_, ?_⟩
  · rw [hbatch]
    have h100 : (100 : Nat) = 99 + 1 := rfl
    rw [h100, chunk_length_eq]
    apply Nat.div_le_div_right
    have := dedupKeep_length_le (dns.map loadFilterOf)
    simp only [List.length_map] at this
    omega
  · rw [hbatch]
    intro b hb
    have h100 : (100 : Nat) = 99 + 1 := rfl
    rw [h100] at hb
    exact chunk_mem_length_le 99 _ b hb
  · intro dn hdn
    constructor
    · intro e he
      unfold loadOne loadGet at he
      have h1 : e ∈ (List.filter (fun x => decide (x.dn = dn)) (loadResults dir dns)).getLast? := by
        simp [he, Option.mem_def]
      obtain ⟨hh, rfl⟩ := List.mem_getLast?_eq_getLast h1
      have hmem := List.getLast_mem hh
      have := List.of_mem_filter hmem
      simpa using this
    · intro hnone e hedir hddn
      unfold loadOne loadGet at hnone
      rw [List.getLast?_eq_none_iff] at hnone
      rw [List.filter_eq_nil_iff] at hnone
      have hfmem : loadFilterOf dn ∈ dedupKeep (dns.map loadFilterOf) := by
        rw [dedupKeep_mem]
        exact List.mem_map_of_mem _ hdn
      have hbmem : ∃ b ∈ loadBatches dns, loadFilterOf dn ∈ b := by
        rw [hbatch]
        have h100 : (100 : Nat) = 99 + 1 := rfl
        rw [h100]
        have := chunk_flatten 99 (dedupKeep (dns.map loadFilterOf))
        rw [← this] at hfmem
        simpa using List.mem_flatten.mp hfmem
      obtain ⟨b, hb, hfb⟩ := hbmem
      have heres : e ∈ loadResults dir dns := by
        unfold loadResults
        rw [List.mem_flatten]
        refine ⟨searchLoadBatch dir b, List.mem_map_of_mem _ hb, ?_⟩
        unfold searchLoadBatch
        rw [List.mem_filter]
        refine ⟨hedir, ?_⟩
        rw [hddn]
        simpa using hfb
      exact hnone e heres (by simpa using hddn)

/-- Twelve dns against one base, plus a directory holding two of them, used
by the C5 witness. -/
def exLoadDns : List String :=
  ["cn=u1,dc=x", "cn=u2,dc=x", "cn=u3,dc=x", "cn=u4,dc=x", "cn=u5,dc=x",
   "cn=u6,dc=x", "cn=u7,dc=x", "cn=u8,dc=x", "cn=u9,dc=x", "cn=u10,dc=x",
   "cn=u11,dc=x", "cn=u12,dc=x"]

def exLoadDir : List DirEntry :=
  [⟨"cn=u1,dc=x", []⟩, ⟨"cn=u7,dc=x", []⟩]

/-- C5 witness: twelve same-tick loads resolve through at most one batched
search of at most 100 filters, each present dn to its entry and each absent
dn to nothing. -/
theorem load_batch_coalescing_witness :
    exLoadDns ≠ [] ∧
    ((loadBatches exLoadDns).length ≤ (exLoadDns.length + 99) / 100 ∧
     (∀ b ∈ loadBatches exLoadDns, b.length ≤ 100) ∧
     (∀ dn ∈ exLoadDns,
       (∀ e, loadOne exLoadDir exLoadDns dn = some e → e.dn = dn) ∧
       (loadOne exLoadDir exLoadDns dn = none → ∀ e ∈ exLoadDir, e.dn ≠ dn))) :=
  ⟨by decide, load_batch_coalescing exLoadDir exLoadDns (by decide)⟩

/-! ## Recursive group membership traversal (src/index.ts lines 461-502)

`getMemberRecur` reads the group's full `member` list, partitions the member
dns by parsed base dn (`batchOnBase`, groups of at most 100 equality filters),
resolves each batch with one streamed OR search, pushes every resolved entry
without a `member` attribute to the output at once, collects the entries with
one (`m.one('member') != null`) as subgroups, and finally recurses into each
subgroup whose dn is not yet in `groupsExplored`, adding the dn before
recursing.  `getMemberStream` seeds the explored set with `new Set(groupdn)` —
in JavaScript the set of the dn string's characters, not the singleton set of
the dn — and starts the recursion at the entry fetched for `groupdn`.

An entry of the member model carries its dn and its `member` values ([] when
the attribute is absent).  A batched OR search answers with the directory
entries whose dn reconstructs one of the batch's `(attr=val)` filters under
its base dn (the well-formed-directory reading of the search).  The stream
backpressure plumbing does not change which entries are pushed and is
elided. -/

structure MemberEntry where
  dn : String
  member : List String
deriving Repr, DecidableEq

/-- `m.one('member') != null`. -/
def isGroupEntry (e : MemberEntry) : Bool :=
  !e.member.isEmpty

/-- JS object accumulation inside `batchOnBase`: filters grouped by base dn in
first-seen key order. -/
def groupByBase (ps : List DNParts) : List (String × List DNParts) :=
  ps.foldl (fun acc p =>
    if acc.any (fun q => q.1 = p.basedn) then
      acc.map (fun q => if q.1 = p.basedn then (q.1, q.2 ++ [p]) else q)
    else acc ++ [(p.basedn, [p])]) []

/-- `batchOnBase`: each base dn's filters sliced into groups of at most 100. -/
def batchOnBase (ps : List DNParts) : List (String × List (List DNParts)) :=
  (groupByBase ps).map (fun bq => (bq.1, batch bq.2 100))

/-- An entry answers the `(attr=val)` equality filter derived from a member dn
exactly when its dn reassembles to that member dn. -/
def matchesFilter (p : DNParts) (e : MemberEntry) : Bool :=
  e.dn = p.attr ++ "=" ++ p.val ++ "," ++ p.basedn

/-- One batched OR search of the traversal. -/
def searchGroupBatch (dir : List MemberEntry) (fs : List DNParts) : List MemberEntry :=
  dir.filter (fun e => fs.any (fun p => matchesFilter p e))

/-- All entries the batched searches over one `member` list deliver, in
search order. -/
def resolveMembers (dir : List MemberEntry) (memberDns : List String) : List MemberEntry :=
  ((batchOnBase (memberDns.map searchForDN)).map
    (fun bb => (bb.2.map (searchGroupBatch dir)).flatten)).flatten

/-- The subgroup loop at the end of `getMemberRecur`: recurse into each
subgroup not yet explored, adding its dn to the explored set first; `rec` is
the recursive call at the remaining fuel. -/
def groupLoop (rec : MemberEntry → List String → Option (List MemberEntry × List String)) :
    List MemberEntry → List MemberEntry × List String →
    Option (List MemberEntry × List String)
  | [], st => some st
  | sg :: rest, (out, ex) =>
    if ex.contains sg.dn then groupLoop rec rest (out, ex)
    else
      match rec sg (ex ++ [sg.dn]) with
      | none => none
      | some (out2, ex2) => groupLoop rec rest (out ++ out2, ex2)

/-- `getMemberRecur`, fuel-indexed: the result is the pushed members together
with the final explored set (`none` when the fuel is exhausted; the
termination theorem below shows fuel `dir.length + 1` always suffices). -/
def getMemberRecur (dir : List MemberEntry) :
    Nat → MemberEntry → List String → Option (List MemberEntry × List String)
  | 0, _, _ => none
  | fuel + 1, g, explored =>
    let resolved := resolveMembers dir g.member
    let leaves := resolved.filter (fun m => !isGroupEntry m)
    let groups := resolved.filter (fun m => isGroupEntry m)
    groupLoop (fun sg ex => getMemberRecur dir fuel sg ex) groups (leaves, explored)

/-- `new Set(groupdn)`: the set of the string's characters. -/
def setOfString (s : String) : List String :=
  dedupKeep (s.data.map (fun c => String.mk [c]))

/-- `getMemberStream`/`getMembers`: fetch the root entry and run the
recursion with the character set of the group dn as the initial explored
set. -/
def getMembersModel (dir : List MemberEntry) (fuel : Nat) (groupdn : String) :
    Option (List MemberEntry) :=
  match dir.find? (fun e => e.dn = groupdn) with
  | none => none
  | some g => (getMemberRecur dir fuel g (setOfString groupdn)).map (fun r => r.1)

/-- A four-entry directory: group g contains subgroups a and b, both of which
contain the person p. -/
def cexDir : List MemberEntry :=
  [⟨"cn=g,dc=x", ["cn=a,dc=x", "cn=b,dc=x"]⟩,
   ⟨"cn=a,dc=x", ["cn=p,dc=x"]⟩,
   ⟨"cn=b,dc=x", ["cn=p,dc=x"]⟩,
   ⟨"cn=p,dc=x", []⟩]

/-- Entries the batched searches deliver all come from the directory. -/
theorem resolveMembers_subset (dir : List MemberEntry) (dns : List String) :
    ∀ m ∈ resolveMembers dir dns, m ∈ dir := by
  intro m hm
  unfold resolveMembers at hm
  rw [List.mem_flatten] at hm
  obtain ⟨l1, hl1, hm1⟩ := hm
  rw [List.mem_map] at hl1
  obtain ⟨bb, _, rfl⟩ := hl1
  rw [List.mem_flatten] at hm1
  obtain ⟨l2, hl2, hm2⟩ := hm1
  rw [List.mem_map] at hl2
  obtain ⟨fs, _, rfl⟩ := hl2
  exact List.mem_of_mem_filter hm2

/-- Number of directory dns not yet in the explored set: the measure the
traversal decreases. -/
def unexplored (dir : List MemberEntry) (explored : List String) : Nat :=
  (dir.map MemberEntry.dn).countP (fun d => !explored.contains d)

theorem unexplored_mono (dir : List MemberEntry) (ex ex2 : List String)
    (h : ∀ x ∈ ex, x ∈ ex2) : unexplored dir ex2 ≤ unexplored dir ex := by
  apply List.countP_mono_left
  intro d _ hd
  simp only [Bool.not_eq_true'] at *
  cases hc : ex.contains d
  · rfl
  · exfalso
    have hmem : d ∈ ex := by simpa using hc
    have : d ∈ ex2 := h d hmem
    simp only [List.contains_eq_any_beq] at hd
    rw [List.any_eq_false] at hd
    exact absurd (by simp : (d == d) = true) (hd d this)

theorem unexplored_strict (dir : List MemberEntry) (ex : List String) (d0 : String)
    (hd : d0 ∈ dir.map MemberEntry.dn) (hnx : d0 ∉ ex) :
    unexplored dir (ex ++ [d0]) < unexplored dir ex := by
  unfold unexplored
  have hmono : ∀ (l : List String),
      l.countP (fun d => !(ex ++ [d0]).contains d) ≤ l.countP (fun d => !ex.contains d) := by
    intro l
    apply List.countP_mono_left
    intro d _ hdd
    simp only [Bool.not_eq_true', List.contains_eq_any_beq, List.any_eq_false] at *
    intro x hx
    exact hdd x (List.mem_append_left _ hx)
  revert hd
  generalize (dir.map MemberEntry.dn) = l
  intro hd
  induction l with
  | nil => simp at hd
  | cons a t ih =>
    rw [List.countP_cons, List.countP_cons]
    by_cases ha : a = d0
    · subst ha
      have hL : ((ex ++ [a]).contains a) = true := by simp
      have hR : (ex.contains a) = false := by
        cases hc : ex.contains a
        · rfl
        · exact absurd (by simpa using hc) hnx
      have := hmono t
      simp only [hL, hR, Bool.not_true, Bool.not_false]
      simp only [Bool.false_eq_true, if_false, if_true]
      omega
    · rcases List.mem_cons.mp hd with h | h
      · exact absurd h.symm ha
      · have htail := ih h
        by_cases hA : ((ex ++ [d0]).contains a) = false
        · have hB : (ex.contains a) = false := by
            cases hc : ex.contains a
            · rfl
            · exfalso
              have hmem : a ∈ ex := by simpa using hc
              have hcc : (ex ++ [d0]).contains a = true := by
                simp [List.mem_append_left _ hmem]
              rw [hcc] at hA
              exact absurd hA (by simp)
          simp only [hA, hB, Bool.not_false, if_true]
          omega
        · rw [Bool.not_eq_false] at hA
          simp only [hA, Bool.not_true, Bool.false_eq_true, if_false]
          cases hB : ex.contains a
          · simp only [Bool.not_false, if_true]
            omega
          · simp only [Bool.not_true, Bool.false_eq_true, if_false]
            omega

/-- With pairwise distinct dns, a dn determines its entry. -/
theorem dn_inj (dir : List MemberEntry) (hnodup : (dir.map MemberEntry.dn).Nodup)
    (e1 e2 : MemberEntry) (h1 : e1 ∈ dir) (h2 : e2 ∈ dir) (h : e1.dn = e2.dn) :
    e1 = e2 :=
  List.inj_on_of_nodup_map hnodup h1 h2 h

/-- Every member the batched searches resolve from the given `member` values
is accounted for: pushed when it is not a group, recorded in the explored set
when it is. -/
def handledMembers (dir : List MemberEntry) (out : List MemberEntry)
    (ex2 : List String) (memberDns : List String) : Prop :=
  ∀ m ∈ resolveMembers dir memberDns,
    (isGroupEntry m = false → m ∈ out) ∧ (isGroupEntry m = true → m.dn ∈ ex2)

theorem handledMembers_mono (dir : List MemberEntry) (out out2 : List MemberEntry)
    (ex ex2 : List String) (memberDns : List String)
    (hout : ∀ m ∈ out, m ∈ out2) (hex : ∀ x ∈ ex, x ∈ ex2)
    (h : handledMembers dir out ex memberDns) :
    handledMembers dir out2 ex2 memberDns := by
  intro m hm
  exact ⟨fun hl => hout m ((h m hm).1 hl), fun hg => hex m.dn ((h m hm).2 hg)⟩

/-- Postcondition of one `getMemberRecur` call: the explored set only grows,
the call's own members are handled, every group whose dn the call added is
handled too, and everything pushed is a non-group entry of the directory. -/
def recPost (dir : List MemberEntry) (g : MemberEntry) (ex : List String)
    (out : List MemberEntry) (ex2 : List String) : Prop :=
  (∀ x ∈ ex, x ∈ ex2) ∧
  handledMembers dir out ex2 g.member ∧
  (∀ e ∈ dir, e.dn ∈ ex2 → e.dn ∉ ex → handledMembers dir out ex2 e.member) ∧
  (∀ m ∈ out, m ∈ dir ∧ isGroupEntry m = false)

theorem groupLoop_cons
    (F : MemberEntry → List String → Option (List MemberEntry × List String))
    (sg : MemberEntry) (rest : List MemberEntry) (out : List MemberEntry)
    (ex : List String) :
    groupLoop F (sg :: rest) (out, ex) =
      if ex.contains sg.dn then groupLoop F rest (out, ex)
      else
        match F sg (ex ++ [sg.dn]) with
        | none => none
        | some (out2, ex2) => groupLoop F rest (out ++ out2, ex2) := rfl

theorem getMemberRecur_succ (dir : List MemberEntry) (fuel : Nat) (g : MemberEntry)
    (ex : List String) :
    getMemberRecur dir (fuel + 1) g ex =
      groupLoop (fun sg ex2 => getMemberRecur dir fuel sg ex2)
        ((resolveMembers dir g.member).filter (fun m => isGroupEntry m))
        ((resolveMembers dir g.member).filter (fun m => !isGroupEntry m), ex) := rfl

/-- The subgroup loop preserves and propagates the traversal postcondition:
given that the recursive call obeys `recPost` below the fuel bound, the loop
terminates, grows the output and the explored set monotonically, records every
processed subgroup's dn, and keeps every newly recorded group handled. -/
theorem groupLoop_spec (dir : List MemberEntry) (fuel : Nat)
    (hnodup : (dir.map MemberEntry.dn).Nodup)
    (F : MemberEntry → List String → Option (List MemberEntry × List String))
    (HF : ∀ g ex, unexplored dir ex < fuel →
      ∃ out ex2, F g ex = some (out, ex2) ∧ recPost dir g ex out ex2) :
    ∀ (groups : List MemberEntry) (out0 : List MemberEntry) (ex0 : List String),
      (∀ sg ∈ groups, sg ∈ dir ∧ isGroupEntry sg = true) →
      unexplored dir ex0 ≤ fuel →
      ∃ out ex2, groupLoop F groups (out0, ex0) = some (out, ex2) ∧
        (∀ m ∈ out0, m ∈ out) ∧
        (∀ x ∈ ex0, x ∈ ex2) ∧
        unexplored dir ex2 ≤ fuel ∧
        (∀ sg ∈ groups, sg.dn ∈ ex2) ∧
        (∀ e ∈ dir, e.dn ∈ ex2 → e.dn ∉ ex0 → handledMembers dir out ex2 e.member) ∧
        (∀ m ∈ out, m ∈ out0 ∨ (m ∈ dir ∧ isGroupEntry m = false)) := by
  intro groups
  induction groups with
  | nil =>
    intro out0 ex0 _ hmeas
    refine ⟨out0, ex0, rfl, fun m hm => hm, fun x hx => hx, hmeas, by simp, ?_, fun m hm => Or.inl hm⟩
    intro e _ he hne
    exact absurd he hne
  | cons sg rest ih =>
    intro out0 ex0 hg hmeas
    have hsg := hg sg (List.mem_cons_self _ _)
    have hgrest : ∀ s ∈ rest, s ∈ dir ∧ isGroupEntry s = true :=
      fun s hs => hg s (List.mem_cons_of_mem _ hs)
    by_cases hc : ex0.contains sg.dn
    · have hstep : groupLoop F (sg :: rest) (out0, ex0) = groupLoop F rest (out0, ex0) := by
        rw [groupLoop_cons, if_pos hc]
      obtain ⟨out, ex2, hrun, hout0, hex0, hm2, hrest, hclo, hsound⟩ :=
        ih out0 ex0 hgrest hmeas
      refine ⟨out, ex2, by rw [hstep]; exact hrun, hout0, hex0, hm2, ?_, hclo, hsound⟩
      intro s hs
      rcases List.mem_cons.mp hs with rfl | hs
      · exact hex0 s.dn (by simpa using hc)
      · exact hrest s hs
    · have hdn : sg.dn ∉ ex0 := fun h => hc (by simpa using h)
      have hmeas2 : unexplored dir (ex0 ++ [sg.dn]) < fuel := by
        have := unexplored_strict dir ex0 sg.dn
          (List.mem_map_of_mem MemberEntry.dn hsg.1) hdn
        omega
      obtain ⟨out2, exC, hF, hCmono, hCmain, hCclo, hCsound⟩ := HF sg (ex0 ++ [sg.dn]) hmeas2
      have hstep : groupLoop F (sg :: rest) (out0, ex0) =
          groupLoop F rest (out0 ++ out2, exC) := by
        rw [groupLoop_cons, if_neg hc, hF]
      have hmeasC : unexplored dir exC ≤ fuel := by
        have h1 := unexplored_mono dir (ex0 ++ [sg.dn]) exC hCmono
        omega
      obtain ⟨out, ex2, hrun, hout0, hexC, hm2, hrest, hclo, hsound⟩ :=
        ih (out0 ++ out2) exC hgrest hmeasC
      have hex0sub : ∀ x ∈ ex0, x ∈ ex2 :=
        fun x hx => hexC x (hCmono x (List.mem_append_left _ hx))
      have hout2sub : ∀ m ∈ out2, m ∈ out :=
        fun m hm => hout0 m (List.mem_append_right _ hm)
      have hexCsub : ∀ x ∈ exC, x ∈ ex2 := hexC
      refine ⟨out, ex2, by rw [hstep]; exact hrun, ?_, hex0sub, hm2, ?_, ?_, ?_⟩
      · exact fun m hm => hout0 m (List.mem_append_left _ hm)
      · intro s hs
        rcases List.mem_cons.mp hs with rfl | hs
        · exact hexC s.dn (hCmono s.dn (List.mem_append_right _ (by simp)))
        · exact hrest s hs
      · intro e hedir he hne0
        by_cases hinC : e.dn ∈ exC
        · by_cases hin2 : e.dn ∈ ex0 ++ [sg.dn]
          · have heq : e.dn = sg.dn := by
              rcases List.mem_append.mp hin2 with h | h
              · exact absurd h hne0
              · simpa using h
            have hesg : e = sg := dn_inj dir hnodup e sg hedir hsg.1 heq
            subst hesg
            exact handledMembers_mono dir out2 out exC ex2 e.member hout2sub hexCsub hCmain
          · exact handledMembers_mono dir out2 out exC ex2 e.member hout2sub hexCsub
              (hCclo e hedir hinC hin2)
        · exact hclo e hedir he hinC
      · intro m hm
        rcases hsound m hm with hm2x | hm2x
        · rcases List.mem_append.mp hm2x with h | h
          · exact Or.inl h
          · exact Or.inr (hCsound m h)
        · exact Or.inr hm2x

/-- Postcondition of `getMemberRecur` given sufficient fuel. -/
theorem getMemberRecur_spec (dir : List MemberEntry)
    (hnodup : (dir.map MemberEntry.dn).Nodup) :
    ∀ (fuel : Nat) (g : MemberEntry) (ex : List String),
      unexplored dir ex < fuel →
      ∃ out ex2, getMemberRecur dir fuel g ex = some (out, ex2) ∧
        recPost dir g ex out ex2 := by
  intro fuel
  induction fuel with
  | zero => intro g ex h; omega
  | succ fuel ih =>
    intro g ex hmeas
    obtain ⟨out, ex2, hrun, hout0, hex0, _, hgrp, hclo, hsound⟩ :=
      groupLoop_spec dir fuel hnodup (fun sg ex2 => getMemberRecur dir fuel sg ex2) ih
        ((resolveMembers dir g.member).filter (fun m => isGroupEntry m))
        ((resolveMembers dir g.member).filter (fun m => !isGroupEntry m))
        ex
        (by
          intro sg hs
          rw [List.mem_filter] at hs
          exact ⟨resolveMembers_subset dir g.member sg hs.1, hs.2⟩)
        (by omega)
    refine ⟨out, ex2, by rw [getMemberRecur_succ]; exact hrun, hex0, ?_, hclo, ?_⟩
    · intro m hm
      constructor
      · intro hleaf
        apply hout0
        rw [List.mem_filter]
        exact ⟨hm, by simp [hleaf]⟩
      · intro hgrpm
        apply hgrp
        rw [List.mem_filter]
        exact ⟨hm, hgrpm⟩
    · intro m hm
      rcases hsound m hm with h | h
      · rw [List.mem_filter] at h
        refine ⟨resolveMembers_subset dir g.member m h.1, ?_⟩
        simpa using h.2
      · exact h

/-- Chains of nested subgroup membership, as the traversal resolves them. -/
inductive ReachableMember (dir : List MemberEntry) : MemberEntry → MemberEntry → Prop where
  | direct {g m : MemberEntry} (hm : m ∈ resolveMembers dir g.member) :
      ReachableMember dir g m
  | nested {g sg m : MemberEntry} (hsg : sg ∈ resolveMembers dir g.member)
      (hgrp : isGroupEntry sg = true) (hrest : ReachableMember dir sg m) :
      ReachableMember dir g m

theorem reach_complete (dir : List MemberEntry) (out : List MemberEntry)
    (ex2 X0 : List String)
    (hX0 : ∀ e ∈ dir, e.dn ∉ X0)
    (hclo : ∀ e ∈ dir, e.dn ∈ ex2 → e.dn ∉ X0 → handledMembers dir out ex2 e.member) :
    ∀ (g L : MemberEntry), ReachableMember dir g L →
      handledMembers dir out ex2 g.member → isGroupEntry L = false → L ∈ out := by
  intro g L h
  induction h with
  | direct hm =>
    intro hg hleaf
    exact (hg _ hm).1 hleaf
  | @nested g2 sg m2 hsg hgrp _ ihr =>
    intro hg hleaf
    have hsgdir : sg ∈ dir := resolveMembers_subset dir g2.member sg hsg
    have hsgdn : sg.dn ∈ ex2 := (hg sg hsg).2 hgrp
    exact ihr (hclo sg hsgdir hsgdn (hX0 sg hsgdir)) hleaf

/-- C2 counterexample: the claim says each non-group member appears at most
once in the output even when it is reachable via multiple paths; but the
person reachable through both subgroups of the root is emitted twice — the
visited-set deduplicates groups only, never the emitted members. -/
theorem getMembers_duplicate_counterexample :
    getMembersModel cexDir 5 "cn=g,dc=x" =
      some [⟨"cn=p,dc=x", []⟩, ⟨"cn=p,dc=x", []⟩] ∧
    List.count (⟨"cn=p,dc=x", []⟩ : MemberEntry)
      ((getMembersModel cexDir 5 "cn=g,dc=x").getD []) = 2 := by
  exact ⟨by decide, by decide⟩

/-- C2 amended: for every directory with pairwise distinct dns whose group dns
are not single characters of the requested group dn, `getMemberStream` over a
finite (possibly cyclic) membership graph terminates with fuel
`|directory| + 1` and emits every non-group member reachable from the group
through nested subgroups (at least once — a member reachable via several
parent groups may be emitted once per such parent, as the visited set
deduplicates groups only), and everything emitted is a non-group entry of the
directory. -/
theorem getMembers_terminates_and_complete (dir : List MemberEntry) (fuel : Nat)
    (groupdn : String) (root : MemberEntry)
    (hroot : dir.find? (fun e => e.dn = groupdn) = some root)
    (hfuel : dir.length + 1 ≤ fuel)
    (hnodup : (dir.map MemberEntry.dn).Nodup)
    (hX0 : ∀ e ∈ dir, e.dn ∉ setOfString groupdn) :
    ∃ out, getMembersModel dir fuel groupdn = some out ∧
      (∀ L, ReachableMember dir root L → isGroupEntry L = false → L ∈ out) ∧
      (∀ m ∈ out, m ∈ dir ∧ isGroupEntry m = false) := by
  have hmeas : unexplored dir (setOfString groupdn) < fuel := by
    have h1 : unexplored dir (setOfString groupdn) ≤ dir.length := by
      unfold unexplored
      calc (dir.map MemberEntry.dn).countP (fun d => !(setOfString groupdn).contains d)
          ≤ (dir.map MemberEntry.dn).length := List.countP_le_length _
        _ = dir.length := by simp
    omega
  obtain ⟨out, ex2, hrun, _, hmain, hclo, hsound⟩ :=
    getMemberRecur_spec dir hnodup fuel root (setOfString groupdn) hmeas
  refine ⟨out, ?_, ?_, hsound⟩
  · unfold getMembersModel
    rw [hroot]
    simp [hrun]
  · intro L hL hleaf
    exact reach_complete dir out ex2 (setOfString groupdn) hX0 hclo root L hL hmain hleaf

/-- C2 witness: the amended statement instantiated at the four-entry
directory of the counterexample. -/
theorem getMembers_terminates_and_complete_witness :
    (cexDir.find? (fun e => e.dn = "cn=g,dc=x") =
        some ⟨"cn=g,dc=x", ["cn=a,dc=x", "cn=b,dc=x"]⟩ ∧
     cexDir.length + 1 ≤ 5 ∧
     (cexDir.map MemberEntry.dn).Nodup ∧
     (∀ e ∈ cexDir, e.dn ∉ setOfString "cn=g,dc=x")) ∧
    (∃ out, getMembersModel cexDir 5 "cn=g,dc=x" = some out ∧
      (∀ L, ReachableMember cexDir ⟨"cn=g,dc=x", ["cn=a,dc=x", "cn=b,dc=x"]⟩ L →
        isGroupEntry L = false → L ∈ out) ∧
      (∀ m ∈ out, m ∈ cexDir ∧ isGroupEntry m = false)) :=
  ⟨⟨by decide, by decide, by decide, by decide⟩,
    getMembers_terminates_and_complete cexDir 5 "cn=g,dc=x"
      ⟨"cn=g,dc=x", ["cn=a,dc=x", "cn=b,dc=x"]⟩
      (by decide) (by decide) (by decide) (by decide)⟩

end LdapAsync
